import Mathlib

/-
Verification of the wpm addon manager (main.go).

The development shallowly embeds the pure core of the program:

* the slash-path functions of Go's `path` package that the program calls
  (`Clean`, `Split`, `Join`, `Dir`) as executable functions on `String`;
* `Specification.Download` — the post-fetch computation of the top-level
  owned directories of the fetched archive (`ownDirs`).  The network and
  HTML scraping are external collaborators: their visible effect on the
  program is summarised by a `FetchOutcome` value (index fetch failed,
  document parse failed, no zip obtained, or an archive entry list).
  The two unbounded `for` loops of the source are given an explicit fuel
  argument; exhausting the fuel at every fuel value is how the embedding
  expresses divergence of the source loop, and dereferencing the nil
  `zipData` pointer is the explicit `nilPanic` result;
* `Specification.PlanChanges` — the change planner;
* the commit loop of the `upgrade` command over a small filesystem model;
* a transition system for the two-phase (fetch barrier, then plan+commit)
  orchestration of `upgrade`.
-/

namespace Wpm

/-! ## Go `path` package (slash-separated paths) -/

/-- Split a character list on a separator character.  `splitChar sep` never
returns `[]`; splitting the empty list yields `[[]]`. -/
def splitChar (sep : Char) : List Char → List (List Char)
  | [] => [[]]
  | c :: cs =>
    match splitChar sep cs with
    | [] => [[]]
    | g :: gs => if c = sep then [] :: g :: gs else (c :: g) :: gs

/-- Stack-based segment processing of Go `path.Clean`: empty and `.` segments
are dropped; `..` pops a real segment, accumulates at the front of a relative
path, and is dropped at the root of a rooted path. -/
def cleanSegs (rooted : Bool) : List (List Char) → List (List Char) → List (List Char)
  | [], acc => acc.reverse
  | s :: rest, acc =>
    if s = [] ∨ s = ['.'] then cleanSegs rooted rest acc
    else if s = ['.', '.'] then
      match acc with
      | [] => if rooted then cleanSegs rooted rest [] else cleanSegs rooted rest [['.', '.']]
      | a :: as =>
        if a = ['.', '.'] then cleanSegs rooted rest (['.', '.'] :: a :: as)
        else cleanSegs rooted rest as
    else cleanSegs rooted rest (s :: acc)

/-- Interleave a separator character between segments. -/
def intercalChar (sep : Char) : List (List Char) → List Char
  | [] => []
  | [g] => g
  | g :: h :: rest => g ++ sep :: intercalChar sep (h :: rest)

/-- Go `path.Clean`. -/
def pathClean (p : String) : String :=
  match p.data with
  | [] => "."
  | c :: cs =>
    let rooted := c = '/'
    let segs := cleanSegs rooted (splitChar '/' (c :: cs)) []
    if rooted then String.mk ('/' :: intercalChar '/' segs)
    else
      match segs with
      | [] => "."
      | _ => String.mk (intercalChar '/' segs)

/-- Split a character list just after its final slash: returns the pair
(directory part including the trailing slash, file part). -/
def splitAtLastSlash : List Char → List Char × List Char
  | [] => ([], [])
  | c :: cs =>
    let r := splitAtLastSlash cs
    if r.1 = [] then
      if c = '/' then (['/'], cs) else ([], c :: cs)
    else (c :: r.1, r.2)

/-- Go `path.Split`. -/
def pathSplit (p : String) : String × String :=
  let r := splitAtLastSlash p.data
  (String.mk r.1, String.mk r.2)

/-- Go `path.Dir`. -/
def pathDir (p : String) : String := pathClean (pathSplit p).1

/-- Go `path.Join` at the only arity the program uses (two arguments): empty
elements are dropped before joining with a slash and the result is cleaned;
joining two empty strings yields the empty string. -/
def pathJoin2 (a b : String) : String :=
  if a = "" then (if b = "" then "" else pathClean b)
  else pathClean (a ++ "/" ++ b)

/-! ## Data model -/

/-- One entry of a downloaded zip archive, as exposed by `archive/zip`:
a name, the directory flag of `FileInfo().IsDir()`, and the byte content. -/
structure ZipEntry where
  name : String
  isDir : Bool
  content : List Nat
deriving DecidableEq, Repr

/-- The `Specification` struct of main.go.  The Go field `Type` is a reserved
word in Lean and is embedded as `Type'`. -/
structure Specification where
  Name : String
  Type' : String
  Location : String
  Branch : String
  zipData : Option (List ZipEntry)
  ownDirs : List String
deriving DecidableEq, Repr

/-- Summary of what the excluded network/HTML collaborator did during
`Download` for an archive-kind specification:

* `indexFailure` — `http.Get` of the project index failed (early return);
* `docParseFailure` — goquery failed to parse the document (early return);
* `noZip` — execution reached the code after the selection loop without a
  zip having been stored: the file listing was empty, the archive download
  failed inside the closure, or `zip.NewReader` failed (its error is
  discarded); in all three cases `zipData` is left as it was;
* `archive es` — a zip with entry list `es` was stored into `zipData`. -/
inductive FetchOutcome where
  | indexFailure
  | docParseFailure
  | noZip
  | archive (entries : List ZipEntry)
deriving DecidableEq, Repr

/-- Result of running `Download`: normal completion, a nil-pointer
dereference of `zipData`, or loop-fuel exhaustion (at every fuel value this
denotes divergence of the corresponding source loop). -/
inductive DLResult where
  | ok (sp : Specification)
  | nilPanic
  | fuelOut
deriving DecidableEq, Repr

/-- The walk-up loop of `Download`: starting from the directory part of an
entry name, repeatedly form `path.Join(dir, "..")` until it equals `"."`,
and return the last value of `dir` before that happens. -/
def walkUp : Nat → String → Option String
  | 0, _ => none
  | fuel + 1, dir =>
    let nxt := pathJoin2 dir ".."
    if nxt = "." then some dir else walkUp fuel nxt

/-- The orbit of the walk-up loop above when it starts from an empty
directory part (an entry at the archive root): `dotsPath n` is `n + 1`
copies of `".."` joined by slashes. -/
def dotsPath : Nat → String
  | 0 => ".."
  | n + 1 => dotsPath n ++ "/.."

/-- The entry loop of `Download`: entries named `"."` are skipped, every
other entry contributes the walk-up result of the directory part of its
name (`path.Split`), in entry order and with duplicates retained. -/
def topDirsRaw (fuel : Nat) : List ZipEntry → Option (List String)
  | [] => some []
  | e :: es =>
    if e.name = "." then topDirsRaw fuel es
    else
      match walkUp fuel (pathSplit e.name).1, topDirsRaw fuel es with
      | some d, some r => some (d :: r)
      | _, _ => none

/-- The code after the selection closure of `Download`: iterate over
`zipData.File` collecting the top-level directory of each entry into a set
(`map[string]struct{}`), then store the set into `ownDirs`.  `List.dedup`
models the key set of the Go map; the Go map's iteration order is
unspecified, so no theorem below depends on the order of `ownDirs`. -/
def afterFetch (sp : Specification) (es : List ZipEntry) (fuel : Nat) : DLResult :=
  match topDirsRaw fuel es with
  | none => DLResult.fuelOut
  | some l => DLResult.ok { sp with ownDirs := l.dedup }

/-- `Specification.Download` of main.go.  For `curse`/`wowace` the
fetch outcome decides the control path; `ignore` and `link` set
`ownDirs := [Name]`; any other `Type` falls through the switch and does
nothing. -/
def Specification.Download (sp : Specification) (o : FetchOutcome) (fuel : Nat) : DLResult :=
  if sp.Type' = "curse" ∨ sp.Type' = "wowace" then
    match o with
    | FetchOutcome.indexFailure => DLResult.ok sp
    | FetchOutcome.docParseFailure => DLResult.ok sp
    | FetchOutcome.noZip =>
      match sp.zipData with
      | none => DLResult.nilPanic
      | some es => afterFetch sp es fuel
    | FetchOutcome.archive es => afterFetch { sp with zipData := some es } es fuel
  else if sp.Type' = "ignore" then DLResult.ok { sp with ownDirs := [sp.Name] }
  else if sp.Type' = "link" then DLResult.ok { sp with ownDirs := [sp.Name] }
  else DLResult.ok sp

/-! ## Change planner -/

/-- The `commiter` variants of main.go. -/
inductive commiter where
  | fsRmdir (loc : String)
  | fsRm (loc : String)
  | fsMkdir (loc : String)
  | fsWritefile (loc : String) (data : List Nat)
  | fsLink (src : String) (dst : String)
deriving DecidableEq, Repr

/-- Result of `PlanChanges`: a change list, or loop-fuel exhaustion (at
every fuel value this denotes divergence of the inner `path.Dir` loop). -/
inductive PlanResult where
  | ok (cs : List commiter)
  | fuelOut
deriving DecidableEq, Repr

/-- The inner loop of `PlanChanges`: `pth := path.Dir(name)`, then while
`pth != "."` record `pth` and step to `path.Dir(pth)`.  `dirChain fuel p`
is the recorded list starting at `p` itself. -/
def dirChain (fuel : Nat) (p : String) : Option (List String) :=
  match fuel with
  | 0 => if p = "." then some [] else none
  | f + 1 => if p = "." then some [] else (dirChain f (pathDir p)).map (p :: ·)

/-- All ancestor directories recorded by the entry loop of `PlanChanges`,
in traversal order and with duplicates retained. -/
def newDirsRaw (fuel : Nat) : List ZipEntry → Option (List String)
  | [] => some []
  | e :: es =>
    match dirChain fuel (pathDir e.name), newDirsRaw fuel es with
    | some c, some r => some (c ++ r)
    | _, _ => none

/-- Strict lexicographic comparison of character lists by code point, the
order Go uses to compare strings (on UTF-8 text, byte order and code-point
order agree). -/
def charListLtB : List Char → List Char → Bool
  | [], [] => false
  | [], _ :: _ => true
  | _ :: _, [] => false
  | a :: as, b :: bs =>
    if a.toNat < b.toNat then true
    else if b.toNat < a.toNat then false
    else charListLtB as bs

/-- Go `<` on strings. -/
def strLtB (a b : String) : Bool := charListLtB a.data b.data

/-- Go `<=` on strings. -/
def strLeB (a b : String) : Bool := !(strLtB b a)

/-- The ordering relation `sort.Strings` sorts by, as a proposition. -/
def strLeP (a b : String) : Prop := strLeB a b = true

instance strLePDec : DecidableRel strLeP :=
  fun a b => instDecidableEqBool (strLeB a b) true

/-- Go `sort.Strings`: ascending lexicographic (byte-order) sort.  The list
being sorted is duplicate-free (it models a map's key set), so every
correct ascending sort yields the same output; insertion sort is used
because it is structurally recursive and therefore computes by reduction. -/
def sortStrings (l : List String) : List String :=
  l.insertionSort strLeP

/-- The `dirSl` slice of `PlanChanges`: the distinct ancestor directories
(the keys of the `map[string]bool`), sorted ascending by `sort.Strings`.
Deduplication before sorting models the map's key set; since the sorted
output of a duplicate-free list is the same for every iteration order of
the map, this is order-independent. -/
def newDirsSorted (fuel : Nat) (es : List ZipEntry) : Option (List String) :=
  (newDirsRaw fuel es).map (fun raw => sortStrings raw.dedup)

/-- `Specification.PlanChanges` of main.go. -/
def Specification.PlanChanges (sp : Specification) (base : String) (fuel : Nat) : PlanResult :=
  if sp.Type' = "curse" ∨ sp.Type' = "wowace" then
    match sp.zipData with
    | none => PlanResult.ok []
    | some es =>
      match newDirsSorted fuel es with
      | none => PlanResult.fuelOut
      | some dirSl =>
        PlanResult.ok
          (sp.ownDirs.map (fun d => commiter.fsRmdir (pathJoin2 base d))
            ++ dirSl.map (fun s => commiter.fsMkdir (pathJoin2 base s))
            ++ (es.filter (fun f => !f.isDir)).map
                (fun f => commiter.fsWritefile (pathJoin2 base f.name) f.content))
  else if sp.Type' = "ignore" then PlanResult.ok []
  else if sp.Type' = "link" then
    PlanResult.ok [commiter.fsRmdir (pathJoin2 base sp.Name),
      commiter.fsLink sp.Location (pathJoin2 base sp.Name)]
  else PlanResult.ok []

/-- The `RemoveTree` changes of a plan, in plan order. -/
def rmTreeChanges (cs : List commiter) : List commiter :=
  cs.filter fun c => match c with | commiter.fsRmdir _ => true | _ => false

/-- The `MakeDir` changes of a plan, in plan order. -/
def mkDirChanges (cs : List commiter) : List commiter :=
  cs.filter fun c => match c with | commiter.fsMkdir _ => true | _ => false

/-- `a` is an ancestor directory of `b` on normalized slash paths: `b`
extends `a` by a slash and a non-empty suffix. -/
def isAncestorOf (a b : String) : Prop :=
  ∃ s : String, s ≠ "" ∧ b = a ++ "/" ++ s

/-! ## Commit loop over a filesystem model

The `commit` methods call into the operating system; the model below gives
them their documented semantics over a finite map from paths to nodes, so
that the commit loop of `upgrade` can be studied as a function. -/

/-- A filesystem node: a directory or a file with byte content. -/
inductive FSNode where
  | dir
  | file (data : List Nat)
deriving DecidableEq, Repr

/-- A filesystem: an association list from paths to nodes (first binding
wins). -/
abbrev FS := List (String × FSNode)

/-- Look a path up in the filesystem. -/
def fsLookup : FS → String → Option FSNode
  | [], _ => none
  | kv :: rest, p => if kv.1 = p then some kv.2 else fsLookup rest p

/-- Bind a path to a node, replacing any previous binding. -/
def fsSet (fs : FS) (p : String) (n : FSNode) : FS :=
  (p, n) :: fs.filter fun kv => !(kv.1 == p)

/-- Whether `p` lies in the tree rooted at `root` (is `root` itself or has
`root ++ "/"` in front). -/
def underTree (root p : String) : Bool :=
  p == root || p.startsWith (root ++ "/")

/-- Commit one change: the `commit` method of each `commiter` variant with
the documented semantics of the `os`/`ioutil` call it makes.
`os.RemoveAll` succeeds even when the path is absent; `os.Remove`,
`os.Mkdir`, `ioutil.WriteFile` and `os.Link` can fail. -/
def commitOne : commiter → FS → Except String FS
  | commiter.fsRmdir loc, fs => Except.ok (fs.filter fun kv => !(underTree loc kv.1))
  | commiter.fsRm loc, fs =>
    match fsLookup fs loc with
    | none => Except.error "remove: not found"
    | some _ => Except.ok (fs.filter fun kv => !(kv.1 == loc))
  | commiter.fsMkdir loc, fs =>
    if (fsLookup fs loc).isSome then Except.error "mkdir: exists"
    else if pathDir loc = "." ∨ fsLookup fs (pathDir loc) = some FSNode.dir then
      Except.ok (fsSet fs loc FSNode.dir)
    else Except.error "mkdir: no parent"
  | commiter.fsWritefile loc data, fs =>
    if fsLookup fs loc = some FSNode.dir then Except.error "write: is a directory"
    else if pathDir loc = "." ∨ fsLookup fs (pathDir loc) = some FSNode.dir then
      Except.ok (fsSet fs loc (FSNode.file data))
    else Except.error "write: no parent"
  | commiter.fsLink src dst, fs =>
    match fsLookup fs src, fsLookup fs dst with
    | some (FSNode.file d), none => Except.ok (fsSet fs dst (FSNode.file d))
    | _, _ => Except.error "link: failed"

/-- The commit loop of `upgrade`: `for _, d := range delta { d.commit() }`.
Each change is committed once, in list order; the returned error of a
commit is discarded by the loop, so the next change runs from whatever
state the failed call left (here: unchanged).  The second component records
the outcome of every attempt, in order. -/
def commitSeq : List commiter → FS → FS × List (Option String)
  | [], fs => (fs, [])
  | c :: cs, fs =>
    let r := commitOne c fs
    let fs1 := match r with | Except.ok f => f | Except.error _ => fs
    let e := match r with | Except.ok _ => none | Except.error m => some m
    let rest := commitSeq cs fs1
    (rest.1, e :: rest.2)

/-! ## Two-phase orchestration of `upgrade`

The `upgrade` command starts one goroutine per addon that calls
`Download`, waits on a `sync.WaitGroup`, then starts one goroutine per
addon that calls `PlanChanges` and commits the plan, and waits again.
The transition system below has exactly these behaviours: `download i`
steps are enabled only before the barrier, the barrier fires only when
every download is done, `planCommit i` steps are enabled only after the
barrier, and a run is finished only when every plan+commit is done. -/

/-- Observable event of one `upgrade` run: addon `i` finished its fetch, or
addon `i` ran its plan-and-commit task. -/
inductive UEvent where
  | download (i : Nat)
  | planCommit (i : Nat)
deriving DecidableEq, Repr

/-- Orchestrator state: current phase (1 = fetch, 2 = plan+commit), and the
completion flags of each addon's task in each phase. -/
structure UState where
  phase : Nat
  dl : List Bool
  pc : List Bool
deriving DecidableEq, Repr

/-- Initial state for `n` addons. -/
def initState (n : Nat) : UState :=
  ⟨1, List.replicate n false, List.replicate n false⟩

/-- One scheduler step of the `upgrade` run, emitting its events. -/
inductive UStep : UState → List UEvent → UState → Prop
  | download (s : UState) (i : Nat) :
      s.phase = 1 → s.dl[i]? = some false →
      UStep s [UEvent.download i] ⟨1, s.dl.set i true, s.pc⟩
  | barrier (s : UState) :
      s.phase = 1 → (∀ b ∈ s.dl, b = true) →
      UStep s [] ⟨2, s.dl, s.pc⟩
  | planCommit (s : UState) (i : Nat) :
      s.phase = 2 → s.pc[i]? = some false →
      UStep s [UEvent.planCommit i] ⟨2, s.dl, s.pc.set i true⟩

/-- Multi-step reachability, accumulating the emitted event trace. -/
inductive UReach : UState → List UEvent → UState → Prop
  | refl (s : UState) : UReach s [] s
  | step {s₁ : UState} {tr : List UEvent} {s₂ : UState} {ev : List UEvent} {s₃ : UState} :
      UReach s₁ tr s₂ → UStep s₂ ev s₃ → UReach s₁ (tr ++ ev) s₃

/-- A finished `upgrade` run: past the barrier with every plan+commit task
completed (the second `wg.Wait()` has returned). -/
def UDone (s : UState) : Prop := s.phase = 2 ∧ ∀ b ∈ s.pc, b = true


/-! ## Concrete inputs used by counterexamples and witnesses -/

/-- Archive with one file directly inside `Foo` and one in a subdirectory. -/
def esFoo : List ZipEntry :=
  [⟨"Foo/a.lua", false, [1]⟩, ⟨"Foo/sub/b.lua", false, [2]⟩]

/-- Archive with a single file directly inside `Foo`. -/
def esFooOnly : List ZipEntry := [⟨"Foo/a.lua", false, [1]⟩]

/-- A curse-kind specification owning `Old` from an earlier run. -/
def spOld : Specification := ⟨"pkg", "curse", "", "", none, ["Old"]⟩

/-- A freshly loaded curse-kind specification (no fetch yet). -/
def spFresh : Specification := ⟨"pkg", "curse", "", "", none, []⟩

/-- A curse-kind specification owning `Foo` from an earlier run. -/
def spFoo : Specification := ⟨"pkg", "curse", "", "", none, ["Foo"]⟩

/-! ## C1 -/

/-- C1, counterexample.  The claim says the `RemoveTree` changes emitted by
`PlanChanges` are exactly one `RemoveTree(base/d)` for each `d` in the
specification's `ownedDirectories` as they stood before the current run's
fetch.  Concretely: the specification owned `Old` before the run, the new
archive holds only `Foo/a.lua` — yet after the run's fetch the plan removes
`base/Foo` and never removes `base/Old`, because `Download` overwrites
`ownDirs` with the new archive's top-level set before `PlanChanges` reads
it (and `ownDirs` is not even persisted between runs: its yaml tag is `-`). -/
theorem C1_counterexample :
    Specification.Download spOld (FetchOutcome.archive esFooOnly) 10
      = DLResult.ok ⟨"pkg", "curse", "", "", some esFooOnly, ["Foo/"]⟩
    ∧ Specification.PlanChanges ⟨"pkg", "curse", "", "", some esFooOnly, ["Foo/"]⟩ "base" 10
      = PlanResult.ok [commiter.fsRmdir "base/Foo", commiter.fsMkdir "base/Foo",
          commiter.fsWritefile "base/Foo/a.lua" [1]]
    ∧ rmTreeChanges [commiter.fsRmdir "base/Foo", commiter.fsMkdir "base/Foo",
          commiter.fsWritefile "base/Foo/a.lua" [1]]
        ≠ spOld.ownDirs.map (fun d => commiter.fsRmdir (pathJoin2 "base" d))
    ∧ commiter.fsRmdir (pathJoin2 "base" "Old")
        ∉ [commiter.fsRmdir "base/Foo", commiter.fsMkdir "base/Foo",
            commiter.fsWritefile "base/Foo/a.lua" [1]] := by
  decide

/-! ## C4 -/

/-- C4 (code bug), evaluation at the failing input.  The claim says every
network or parse failure during `Download` leaves the specification
untouched and `PlanChanges` then emits no changes.  That is what the code
does for an index fetch failure and for a document parse failure (first
three conjuncts).  But when the archive download or the zip parse fails,
the closure merely returns, `zipData` stays nil, and the directory loop
right after the closure dereferences the nil `zipData` — a panic that
crashes the run (last conjunct). -/
theorem C4_nil_deref :
    Specification.Download spFresh FetchOutcome.indexFailure 10 = DLResult.ok spFresh
    ∧ Specification.Download spFresh FetchOutcome.docParseFailure 10 = DLResult.ok spFresh
    ∧ Specification.PlanChanges spFresh "base" 10 = PlanResult.ok []
    ∧ Specification.Download spFresh FetchOutcome.noZip 10 = DLResult.nilPanic := by
  decide

/-! ## C5 -/

/-- C5, counterexample.  The claim: a specification whose previous
`ownedDirectories` is `{Foo}`, fetching an archive with exactly
`Foo/a.lua` and `Foo/sub/b.lua`, plans exactly five changes.  Running the
pipeline (fetch, then plan) from that state instead yields six changes:
the fetch rewrites `ownDirs` to `{Foo/, Foo}` (the walk-up keeps the
trailing slash of a direct-child entry), so `RemoveTree(base/Foo)` is
emitted twice. -/
theorem C5_counterexample :
    Specification.Download spFoo (FetchOutcome.archive esFoo) 10
      = DLResult.ok ⟨"pkg", "curse", "", "", some esFoo, ["Foo/", "Foo"]⟩
    ∧ Specification.PlanChanges ⟨"pkg", "curse", "", "", some esFoo, ["Foo/", "Foo"]⟩ "base" 10
      = PlanResult.ok [commiter.fsRmdir "base/Foo", commiter.fsRmdir "base/Foo",
          commiter.fsMkdir "base/Foo", commiter.fsMkdir "base/Foo/sub",
          commiter.fsWritefile "base/Foo/a.lua" [1],
          commiter.fsWritefile "base/Foo/sub/b.lua" [2]]
    ∧ [commiter.fsRmdir "base/Foo", commiter.fsRmdir "base/Foo",
          commiter.fsMkdir "base/Foo", commiter.fsMkdir "base/Foo/sub",
          commiter.fsWritefile "base/Foo/a.lua" [1],
          commiter.fsWritefile "base/Foo/sub/b.lua" [2]]
        ≠ [commiter.fsRmdir "base/Foo",
          commiter.fsMkdir "base/Foo", commiter.fsMkdir "base/Foo/sub",
          commiter.fsWritefile "base/Foo/a.lua" [1],
          commiter.fsWritefile "base/Foo/sub/b.lua" [2]] := by
  decide

/-! ## C7 -/

/-- C7.  A `link`-kind specification with name `n` and location `loc`
always plans exactly `[RemoveTree(base/n), Link(loc, base/n)]`, in that
order, regardless of `zipData`, of prior `ownDirs`, and of the base
directory. -/
theorem C7_link_plan (n loc br base : String) (zd : Option (List ZipEntry))
    (od : List String) (fuel : Nat) :
    Specification.PlanChanges ⟨n, "link", loc, br, zd, od⟩ base fuel
      = PlanResult.ok [commiter.fsRmdir (pathJoin2 base n),
          commiter.fsLink loc (pathJoin2 base n)] := by
  simp [Specification.PlanChanges]

/-! ## C10 -/

/-- C10.  A specification whose `Type` is none of `curse`, `wowace`,
`ignore`, `link` falls through both switches: `Download` returns it
unchanged for every fetch outcome (in particular without consulting the
network at all) and `PlanChanges` plans the empty sequence. -/
theorem C10_unknown_kind (sp : Specification) (o : FetchOutcome) (fuel : Nat) (base : String)
    (h1 : sp.Type' ≠ "curse") (h2 : sp.Type' ≠ "wowace")
    (h3 : sp.Type' ≠ "ignore") (h4 : sp.Type' ≠ "link") :
    sp.Download o fuel = DLResult.ok sp ∧ sp.PlanChanges base fuel = PlanResult.ok [] := by
  constructor
  · simp [Specification.Download, h1, h2, h3, h4]
  · simp [Specification.PlanChanges, h1, h2, h3, h4]

/-- C10, witness at a concrete unknown kind. -/
theorem C10_unknown_kind_witness :
    ((("xyz" : String) ≠ "curse") ∧ (("xyz" : String) ≠ "wowace")
      ∧ (("xyz" : String) ≠ "ignore") ∧ (("xyz" : String) ≠ "link"))
    ∧ (Specification.Download ⟨"p", "xyz", "", "", none, []⟩ FetchOutcome.indexFailure 3
        = DLResult.ok ⟨"p", "xyz", "", "", none, []⟩
      ∧ Specification.PlanChanges ⟨"p", "xyz", "", "", none, []⟩ "b" 3 = PlanResult.ok []) :=
  ⟨⟨by decide, by decide, by decide, by decide⟩,
    C10_unknown_kind ⟨"p", "xyz", "", "", none, []⟩ FetchOutcome.indexFailure 3 "b"
      (by decide) (by decide) (by decide) (by decide)⟩

/-! ## C8 -/

/-- Auxiliary: the commit loop records one outcome per change. -/
theorem commitSeq_length (cs : List commiter) (fs : FS) :
    (commitSeq cs fs).2.length = cs.length := by
  induction cs generalizing fs with
  | nil => rfl
  | cons c cs ih => simp [commitSeq, ih]

/-- C8.  The commit loop attempts every change of the sequence exactly once,
in the sequence's fixed order, regardless of earlier errors: splitting the
sequence anywhere, the changes after the split are committed starting from
whatever state the changes before the split produced — whatever their
recorded outcomes were — and the outcome trace is the concatenation of the
two halves' traces, one outcome per change.  Nothing is retried (one trace
entry per change) and nothing is rolled back (the state passed to the second
half is exactly the state the first half left). -/
theorem C8_commit_sequence (cs₁ cs₂ : List commiter) (fs : FS) :
    (commitSeq (cs₁ ++ cs₂) fs).1 = (commitSeq cs₂ (commitSeq cs₁ fs).1).1
    ∧ (commitSeq (cs₁ ++ cs₂) fs).2
      = (commitSeq cs₁ fs).2 ++ (commitSeq cs₂ (commitSeq cs₁ fs).1).2
    ∧ (commitSeq (cs₁ ++ cs₂) fs).2.length = cs₁.length + cs₂.length := by
  refine ⟨?_, ?_, ?_⟩
  · induction cs₁ generalizing fs with
    | nil => simp [commitSeq]
    | cons c cs ih => simp [commitSeq, ih]
  · induction cs₁ generalizing fs with
    | nil => simp [commitSeq]
    | cons c cs ih => simp [commitSeq, ih]
  · induction cs₁ generalizing fs with
    | nil => simp [commitSeq, commitSeq_length]
    | cons c cs ih => simp [commitSeq, ih]; omega

/-! ## C2 -/

/-- C2, counterexample.  The claim says the new `ownDirs` set is
deduplicated in the sense that no two elements denote the same top-level
directory.  For the archive `[Foo/a.lua, Foo/sub/b.lua]` the walk-up keeps
the trailing slash of the `path.Split` result when the very first
`path.Join(dir, "..")` already yields `"."` (entry `Foo/a.lua`), but strips
it after one step (entry `Foo/sub/b.lua`), so `ownDirs` ends up holding
both `"Foo/"` and `"Foo"` — two distinct strings denoting the same
top-level directory. -/
theorem C2_counterexample :
    Specification.Download spFresh (FetchOutcome.archive esFoo) 10
      = DLResult.ok ⟨"pkg", "curse", "", "", some esFoo, ["Foo/", "Foo"]⟩
    ∧ ("Foo/" : String) ≠ "Foo"
    ∧ pathClean "Foo/" = "Foo" ∧ pathClean "Foo" = "Foo"
    ∧ pathJoin2 "base" "Foo/" = pathJoin2 "base" "Foo" := by
  decide

/-- Auxiliary: the walk-up loop never returns `"."` — its stopping
condition is about `path.Join(dir, "..")`, which is `".."` when `dir` is
`"."`. -/
theorem walkUp_ne_dot (fuel : Nat) (s d : String) (h : walkUp fuel s = some d) :
    d ≠ "." := by
  induction fuel generalizing s with
  | zero => simp [walkUp] at h
  | succ f ih =>
    rw [walkUp] at h
    by_cases hc : pathJoin2 s ".." = "."
    · simp [hc] at h
      subst h
      intro hd
      rw [hd] at hc
      exact absurd hc (by decide)
    · simp [hc] at h
      exact ih _ h

/-- Auxiliary: membership in the raw top-level directory list collected by
`Download`'s entry loop. -/
theorem mem_topDirsRaw (fuel : Nat) (es : List ZipEntry) (raw : List String)
    (h : topDirsRaw fuel es = some raw) (d : String) :
    d ∈ raw ↔ ∃ e ∈ es, e.name ≠ "." ∧ walkUp fuel (pathSplit e.name).1 = some d := by
  induction es generalizing raw with
  | nil =>
    simp [topDirsRaw] at h
    subst h
    simp
  | cons e es ih =>
    rw [topDirsRaw] at h
    by_cases he : e.name = "."
    · rw [if_pos he] at h
      rw [ih raw h]
      constructor
      · rintro ⟨e', he', hne, hw⟩
        exact ⟨e', List.mem_cons_of_mem _ he', hne, hw⟩
      · rintro ⟨e', he', hne, hw⟩
        rcases List.mem_cons.mp he' with rfl | hmem
        · exact absurd he hne
        · exact ⟨e', hmem, hne, hw⟩
    · rw [if_neg he] at h
      cases hw : walkUp fuel (pathSplit e.name).1 with
      | none => rw [hw] at h; cases h
      | some d0 =>
        rw [hw] at h
        cases hr : topDirsRaw fuel es with
        | none => rw [hr] at h; cases h
        | some r =>
          rw [hr] at h
          cases h
          rw [List.mem_cons]
          constructor
          · rintro (rfl | hmem)
            · exact ⟨e, List.mem_cons_self _ _, he, hw⟩
            · rcases (ih r hr).mp hmem with ⟨e', he', hne, hw'⟩
              exact ⟨e', List.mem_cons_of_mem _ he', hne, hw'⟩
          · rintro ⟨e', he', hne, hw'⟩
            rcases List.mem_cons.mp he' with rfl | hmem
            · rw [hw] at hw'
              cases hw'
              exact Or.inl rfl
            · exact Or.inr ((ih r hr).mpr ⟨e', hmem, hne, hw'⟩)

/-- C2, amended.  What holds of the new `ownDirs` after a successful
archive fetch: it is duplicate-free as a list of strings, never contains
the archive root `"."`, and its members are exactly the walk-up results of
the entries (skipping entries named `"."`).  The deduplication is by
string equality only, so — as the counterexample shows — two textual
variants of the same directory (`"Foo/"` and `"Foo"`) can both appear. -/
theorem C2_amended_ownDirs (sp : Specification) (es : List ZipEntry) (fuel : Nat)
    (sp' : Specification)
    (ht : sp.Type' = "curse" ∨ sp.Type' = "wowace")
    (hd : sp.Download (FetchOutcome.archive es) fuel = DLResult.ok sp') :
    sp'.ownDirs.Nodup
    ∧ "." ∉ sp'.ownDirs
    ∧ (∀ d, d ∈ sp'.ownDirs ↔
        ∃ e ∈ es, e.name ≠ "." ∧ walkUp fuel (pathSplit e.name).1 = some d) := by
  rw [Specification.Download, if_pos ht] at hd
  rw [afterFetch] at hd
  cases hr : topDirsRaw fuel es with
  | none => rw [hr] at hd; cases hd
  | some raw =>
    rw [hr] at hd
    cases hd
    refine ⟨List.nodup_dedup raw, ?_, ?_⟩
    · intro hmem
      rw [List.mem_dedup, mem_topDirsRaw fuel es raw hr] at hmem
      rcases hmem with ⟨e, _, _, hw⟩
      exact walkUp_ne_dot fuel _ _ hw rfl
    · intro d
      rw [List.mem_dedup]
      exact mem_topDirsRaw fuel es raw hr d

/-- C2, witness for the amended theorem at the two-entry archive. -/
theorem C2_amended_ownDirs_witness :
    ((spFresh.Type' = "curse" ∨ spFresh.Type' = "wowace")
      ∧ spFresh.Download (FetchOutcome.archive esFoo) 10
        = DLResult.ok ⟨"pkg", "curse", "", "", some esFoo, ["Foo/", "Foo"]⟩)
    ∧ ((⟨"pkg", "curse", "", "", some esFoo, ["Foo/", "Foo"]⟩ : Specification).ownDirs.Nodup
      ∧ "." ∉ (⟨"pkg", "curse", "", "", some esFoo, ["Foo/", "Foo"]⟩ : Specification).ownDirs
      ∧ (∀ d, d ∈ (⟨"pkg", "curse", "", "", some esFoo, ["Foo/", "Foo"]⟩ : Specification).ownDirs ↔
          ∃ e ∈ esFoo, e.name ≠ "." ∧ walkUp 10 (pathSplit e.name).1 = some d)) :=
  ⟨⟨by decide, by decide⟩,
    C2_amended_ownDirs spFresh esFoo 10 _ (by decide) (by decide)⟩

/-! ## C1, amended -/

/-- Auxiliary: `rmTreeChanges` distributes over append. -/
theorem rmTree_append (l₁ l₂ : List commiter) :
    rmTreeChanges (l₁ ++ l₂) = rmTreeChanges l₁ ++ rmTreeChanges l₂ :=
  List.filter_append _ _

/-- Auxiliary: `Download` on a fetched archive, solved for the result. -/
theorem download_archive_eq (sp : Specification) (es : List ZipEntry) (raw : List String)
    (fuel : Nat) (ht : sp.Type' = "curse" ∨ sp.Type' = "wowace")
    (hr : topDirsRaw fuel es = some raw) :
    sp.Download (FetchOutcome.archive es) fuel
      = DLResult.ok { sp with zipData := some es, ownDirs := raw.dedup } := by
  rw [Specification.Download, if_pos ht]
  simp [afterFetch, hr]

/-- Auxiliary: `PlanChanges` on an archive specification whose directory
set computation succeeds, solved for the emitted plan. -/
theorem planChanges_archive_eq (sp : Specification) (es : List ZipEntry) (dirSl : List String)
    (base : String) (fuel : Nat)
    (ht : sp.Type' = "curse" ∨ sp.Type' = "wowace") (hz : sp.zipData = some es)
    (hs : newDirsSorted fuel es = some dirSl) :
    sp.PlanChanges base fuel = PlanResult.ok
      (sp.ownDirs.map (fun d => commiter.fsRmdir (pathJoin2 base d))
        ++ dirSl.map (fun s => commiter.fsMkdir (pathJoin2 base s))
        ++ (es.filter (fun f => !f.isDir)).map
            (fun f => commiter.fsWritefile (pathJoin2 base f.name) f.content)) := by
  rw [Specification.PlanChanges, if_pos ht, hz]
  simp only [hs]

/-- Auxiliary: `PlanChanges` on an archive specification whose directory
set computation runs out of fuel. -/
theorem planChanges_archive_fuelOut (sp : Specification) (es : List ZipEntry)
    (base : String) (fuel : Nat)
    (ht : sp.Type' = "curse" ∨ sp.Type' = "wowace") (hz : sp.zipData = some es)
    (hs : newDirsSorted fuel es = none) :
    sp.PlanChanges base fuel = PlanResult.fuelOut := by
  rw [Specification.PlanChanges, if_pos ht, hz]
  simp only [hs]

/-- Auxiliary: a mapped `fsRmdir` list passes through `rmTreeChanges`. -/
theorem rmTree_map_rm (g : String → String) (l : List String) :
    rmTreeChanges (l.map fun d => commiter.fsRmdir (g d)) = l.map fun d => commiter.fsRmdir (g d) := by
  induction l with
  | nil => rfl
  | cons a l ih => simp [rmTreeChanges, List.filter_cons, ih]

/-- Auxiliary: a mapped `fsMkdir` list is dropped by `rmTreeChanges`. -/
theorem rmTree_map_mk (g : String → String) (l : List String) :
    rmTreeChanges (l.map fun s => commiter.fsMkdir (g s)) = [] := by
  induction l with
  | nil => rfl
  | cons a l ih => simp [rmTreeChanges, List.filter_cons, ih]

/-- Auxiliary: a mapped `fsWritefile` list is dropped by `rmTreeChanges`. -/
theorem rmTree_map_wr (base : String) (es : List ZipEntry) :
    rmTreeChanges (es.map fun f => commiter.fsWritefile (pathJoin2 base f.name) f.content) = [] := by
  induction es with
  | nil => rfl
  | cons e es ih => simp [rmTreeChanges, List.filter_cons, ih]

/-- C1, amended.  The `RemoveTree` changes `PlanChanges` emits after a
successful in-run fetch are exactly one `RemoveTree(base/d)` per element
`d` of `ownDirs` *as rewritten by that fetch* — i.e. the new archive's
top-level directory set (deduplicated by string equality), not the set the
specification owned before the run.  (`ownDirs` also carries a `yaml:"-"`
tag, so a previous run's set is never even loaded.) -/
theorem C1_amended_removeTrees (sp : Specification) (es : List ZipEntry) (fuel : Nat)
    (sp' : Specification) (base : String) (plan : List commiter)
    (ht : sp.Type' = "curse" ∨ sp.Type' = "wowace")
    (hd : sp.Download (FetchOutcome.archive es) fuel = DLResult.ok sp')
    (hp : sp'.PlanChanges base fuel = PlanResult.ok plan) :
    ∃ raw, topDirsRaw fuel es = some raw
      ∧ sp'.ownDirs = raw.dedup
      ∧ rmTreeChanges plan = raw.dedup.map fun d => commiter.fsRmdir (pathJoin2 base d) := by
  cases hr : topDirsRaw fuel es with
  | none =>
    rw [Specification.Download, if_pos ht] at hd
    rw [afterFetch, hr] at hd
    cases hd
  | some raw =>
    rw [download_archive_eq sp es raw fuel ht hr] at hd
    cases hd
    refine ⟨raw, rfl, rfl, ?_⟩
    cases hs : newDirsSorted fuel es with
    | none =>
      rw [planChanges_archive_fuelOut
        ⟨sp.Name, sp.Type', sp.Location, sp.Branch, some es, raw.dedup⟩
        es base fuel ht rfl hs] at hp
      cases hp
    | some dirSl =>
      rw [planChanges_archive_eq
        ⟨sp.Name, sp.Type', sp.Location, sp.Branch, some es, raw.dedup⟩
        es dirSl base fuel ht rfl hs] at hp
      cases hp
      rw [rmTree_append, rmTree_append, rmTree_map_rm, rmTree_map_mk, rmTree_map_wr]
      simp

/-- C1, witness for the amended theorem. -/
theorem C1_amended_removeTrees_witness :
    ((spOld.Type' = "curse" ∨ spOld.Type' = "wowace")
      ∧ spOld.Download (FetchOutcome.archive esFooOnly) 10
        = DLResult.ok ⟨"pkg", "curse", "", "", some esFooOnly, ["Foo/"]⟩
      ∧ Specification.PlanChanges ⟨"pkg", "curse", "", "", some esFooOnly, ["Foo/"]⟩ "base" 10
        = PlanResult.ok [commiter.fsRmdir "base/Foo", commiter.fsMkdir "base/Foo",
            commiter.fsWritefile "base/Foo/a.lua" [1]])
    ∧ (∃ raw, topDirsRaw 10 esFooOnly = some raw
      ∧ (⟨"pkg", "curse", "", "", some esFooOnly, ["Foo/"]⟩ : Specification).ownDirs = raw.dedup
      ∧ rmTreeChanges [commiter.fsRmdir "base/Foo", commiter.fsMkdir "base/Foo",
            commiter.fsWritefile "base/Foo/a.lua" [1]]
        = raw.dedup.map fun d => commiter.fsRmdir (pathJoin2 "base" d)) :=
  ⟨⟨by decide, by decide, by decide⟩,
    C1_amended_removeTrees spOld esFooOnly 10 _ "base" _ (by decide) (by decide) (by decide)⟩


/-! ## C5, amended -/

/-- Auxiliary: the inner directory loop of `PlanChanges` stops immediately
at `"."` whatever the remaining fuel. -/
theorem dirChain_dot (m : Nat) : dirChain m "." = some [] := by
  cases m <;> rfl

/-- C5, amended.  `PlanChanges` invoked on a specification whose `ownDirs`
at plan time is exactly `["Foo"]` and whose fetched archive holds exactly
`Foo/a.lua` then `Foo/sub/b.lua` emits exactly the five claimed changes in
that order (file writes in archive entry order), for every base directory
and every sufficient loop fuel.  (As the counterexample shows, in a full
run the fetch itself first rewrites `ownDirs` to `{Foo/, Foo}`, adding a
duplicate `RemoveTree`.) -/
theorem C5_amended_plan (base : String) (n : Nat) :
    Specification.PlanChanges ⟨"pkg", "curse", "", "", some esFoo, ["Foo"]⟩ base (n + 2)
      = PlanResult.ok [commiter.fsRmdir (pathJoin2 base "Foo"),
          commiter.fsMkdir (pathJoin2 base "Foo"), commiter.fsMkdir (pathJoin2 base "Foo/sub"),
          commiter.fsWritefile (pathJoin2 base "Foo/a.lua") [1],
          commiter.fsWritefile (pathJoin2 base "Foo/sub/b.lua") [2]] := by
  have hpa : pathDir "Foo/a.lua" = "Foo" := rfl
  have hpb : pathDir "Foo/sub/b.lua" = "Foo/sub" := rfl
  have hpf : pathDir "Foo" = "." := rfl
  have hps : pathDir "Foo/sub" = "Foo" := rfl
  have h1' : dirChain (n + 1) "Foo" = some ["Foo"] := by
    rw [dirChain]
    simp [hpf, dirChain_dot]
  have h1 : dirChain (n + 2) "Foo" = some ["Foo"] := by
    show dirChain ((n + 1) + 1) "Foo" = some ["Foo"]
    rw [dirChain]
    simp [hpf, dirChain_dot]
  have h2 : dirChain (n + 2) "Foo/sub" = some ["Foo/sub", "Foo"] := by
    show dirChain ((n + 1) + 1) "Foo/sub" = some ["Foo/sub", "Foo"]
    rw [dirChain]
    simp [hps, h1']
  have hall : newDirsRaw (n + 2) esFoo = some ["Foo", "Foo/sub", "Foo"] := by
    show newDirsRaw (n + 2) [⟨"Foo/a.lua", false, [1]⟩, ⟨"Foo/sub/b.lua", false, [2]⟩]
      = some ["Foo", "Foo/sub", "Foo"]
    simp only [newDirsRaw, hpa, hpb, h1, h2]
    rfl
  have hds : newDirsSorted (n + 2) esFoo = some ["Foo", "Foo/sub"] := by
    rw [newDirsSorted, hall]
    rfl
  rw [planChanges_archive_eq ⟨"pkg", "curse", "", "", some esFoo, ["Foo"]⟩ esFoo
    ["Foo", "Foo/sub"] base (n + 2) (Or.inl rfl) rfl hds]
  simp [esFoo]


/-! ## C3: divergence of the walk-up loop on root-level entries -/

/-- Auxiliary: splitting never yields the empty group list. -/
theorem splitChar_ne_nil (sep : Char) (l : List Char) : splitChar sep l ≠ [] := by
  induction l with
  | nil => simp [splitChar]
  | cons c cs ih =>
    rw [splitChar]
    cases h : splitChar sep cs with
    | nil => simp
    | cons g gs =>
      by_cases hc : c = sep <;> simp [hc]

/-- Auxiliary: a separator occurrence splits an append cleanly. -/
theorem splitChar_append (sep : Char) (a b : List Char) :
    splitChar sep (a ++ sep :: b) = splitChar sep a ++ splitChar sep b := by
  induction a with
  | nil =>
    rw [List.nil_append, splitChar]
    cases h : splitChar sep b with
    | nil => exact absurd h (splitChar_ne_nil sep b)
    | cons g gs => rw [splitChar, h]; simp
  | cons c a ih =>
    rw [List.cons_append, splitChar, ih]
    cases h : splitChar sep a with
    | nil => exact absurd h (splitChar_ne_nil sep a)
    | cons g gs =>
      by_cases hc : c = sep <;> simp [hc, splitChar, h]

/-- Auxiliary: character data of the orbit, append form. -/
theorem dotsPath_data_succ (n : Nat) :
    (dotsPath (n + 1)).data = (dotsPath n).data ++ ['/', '.', '.'] := by
  rw [dotsPath, String.data_append]

/-- Auxiliary: character data of the orbit, cons form. -/
theorem dotsPath_data_cons (n : Nat) :
    (dotsPath (n + 1)).data = '.' :: '.' :: '/' :: (dotsPath n).data := by
  induction n with
  | zero => rfl
  | succ n ih =>
    conv_lhs => rw [dotsPath_data_succ (n + 1), ih]
    conv_rhs => rw [dotsPath_data_succ n]
    simp

/-- Auxiliary: the orbit always starts with two dots. -/
theorem dotsPath_head (n : Nat) : ∃ t, (dotsPath n).data = '.' :: '.' :: t := by
  cases n with
  | zero => exact ⟨[], rfl⟩
  | succ n => exact ⟨_, dotsPath_data_cons n⟩

/-- Auxiliary: the orbit never reaches the empty string. -/
theorem dotsPath_ne_empty (n : Nat) : dotsPath n ≠ "" := by
  obtain ⟨t, ht⟩ := dotsPath_head n
  intro h
  rw [h] at ht
  simp at ht

/-- Auxiliary: the orbit never reaches `"."` — the loop's only exit. -/
theorem dotsPath_ne_dot (n : Nat) : dotsPath n ≠ "." := by
  obtain ⟨t, ht⟩ := dotsPath_head n
  intro h
  rw [h] at ht
  simp at ht

/-- Auxiliary: splitting the orbit on slashes gives `n + 1` double-dot
segments. -/
theorem splitChar_dots (n : Nat) :
    splitChar '/' (dotsPath n).data = List.replicate (n + 1) ['.', '.'] := by
  induction n with
  | zero => rfl
  | succ n ih =>
    rw [dotsPath_data_succ]
    rw [show ((dotsPath n).data ++ ['/', '.', '.']) = (dotsPath n).data ++ '/' :: ['.', '.']
      from rfl]
    rw [splitChar_append, ih]
    rw [show splitChar '/' ['.', '.'] = [['.', '.']] from rfl]
    simp [List.replicate_succ']

/-- Auxiliary: `path.Clean`'s segment pass keeps accumulating `..` segments
of a relative path. -/
theorem cleanSegs_dotdot (k j : Nat) :
    cleanSegs false (List.replicate k ['.', '.']) (List.replicate j ['.', '.'])
      = List.replicate (k + j) ['.', '.'] := by
  induction k generalizing j with
  | zero => simp [cleanSegs, List.reverse_replicate]
  | succ k ih =>
    cases j with
    | zero =>
      rw [List.replicate_succ, cleanSegs.eq_def]
      have h1 := ih 1
      rw [List.replicate_one] at h1
      simp +decide [List.replicate_zero, h1, List.replicate_succ]
    | succ j =>
      rw [List.replicate_succ, cleanSegs.eq_def]
      rw [show List.replicate (j + 1) ['.', '.'] = ['.', '.'] :: List.replicate j ['.', '.']
        from rfl]
      have hj := ih (j + 2)
      rw [show List.replicate (j + 2) ['.', '.']
          = ['.', '.'] :: ['.', '.'] :: List.replicate j ['.', '.'] from rfl] at hj
      simp +decide [hj]
      have harith : k + (j + 2) = k + 1 + (j + 1) := by omega
      rw [← harith]

/-- Auxiliary: re-joining the double-dot segments gives the orbit back. -/
theorem intercal_dots (n : Nat) :
    intercalChar '/' (List.replicate (n + 1) ['.', '.']) = (dotsPath n).data := by
  induction n with
  | zero => rfl
  | succ n ih =>
    rw [List.replicate_succ, List.replicate_succ, intercalChar]
    rw [← List.replicate_succ, ih, dotsPath_data_cons]
    rfl

/-- Auxiliary: computation rule for `path.Clean` on a relative path whose
segment pass returns at least one segment. -/
theorem pathClean_relative_cons (c : Char) (cs : List Char) (s : String)
    (hs : s.data = c :: cs) (hc : ¬ c = '/') (a : List Char) (g : List (List Char))
    (hsegs : cleanSegs false (splitChar '/' (c :: cs)) [] = a :: g) :
    pathClean s = String.mk (intercalChar '/' (a :: g)) := by
  rw [pathClean, hs]
  simp [hc, hsegs]

/-- Auxiliary: `path.Clean` fixes the orbit. -/
theorem pathClean_dots (m : Nat) : pathClean (dotsPath m) = dotsPath m := by
  obtain ⟨t, ht⟩ := dotsPath_head m
  have hsegs : cleanSegs false (splitChar '/' ('.' :: '.' :: t)) []
      = ['.', '.'] :: List.replicate m ['.', '.'] := by
    rw [show ('.' :: '.' :: t) = (dotsPath m).data from ht.symm, splitChar_dots]
    have h0 := cleanSegs_dotdot (m + 1) 0
    rw [List.replicate_zero] at h0
    rw [h0]
    simp [List.replicate_succ]
  rw [pathClean_relative_cons '.' ('.' :: t) (dotsPath m) ht (by decide) _ _ hsegs]
  rw [show (['.', '.'] :: List.replicate m ['.', '.']) = List.replicate (m + 1) ['.', '.']
    from rfl]
  rw [intercal_dots]

/-- Auxiliary: one `path.Join(dir, "..")` step advances the orbit. -/
theorem join_dots (n : Nat) : pathJoin2 (dotsPath n) ".." = dotsPath (n + 1) := by
  rw [pathJoin2, if_neg (dotsPath_ne_empty n)]
  have hd : (dotsPath n ++ "/" ++ "..").data = (dotsPath (n + 1)).data := by
    rw [String.data_append, String.data_append, dotsPath_data_succ]
    simp
  have hstr : dotsPath n ++ "/" ++ ".." = dotsPath (n + 1) :=
    calc dotsPath n ++ "/" ++ ".."
        = String.mk ((dotsPath n ++ "/" ++ "..").data) := rfl
      _ = String.mk ((dotsPath (n + 1)).data) := by rw [hd]
      _ = dotsPath (n + 1) := rfl
  rw [hstr, pathClean_dots]

/-- Auxiliary: starting the walk from the orbit never terminates, at any
fuel. -/
theorem walkUp_dots (fuel : Nat) : ∀ n, walkUp fuel (dotsPath n) = none := by
  induction fuel with
  | zero => intro n; rfl
  | succ fuel ih =>
    intro n
    rw [walkUp]
    simp only [join_dots]
    rw [if_neg (dotsPath_ne_dot (n + 1))]
    exact ih (n + 1)

/-- Auxiliary: starting the walk from the empty directory part (an entry at
the archive root) never terminates, at any fuel. -/
theorem walkUp_empty (fuel : Nat) : walkUp fuel "" = none := by
  cases fuel with
  | zero => rfl
  | succ fuel =>
    rw [walkUp]
    rw [show pathJoin2 "" ".." = dotsPath 0 from rfl]
    rw [if_neg (dotsPath_ne_dot 0)]
    exact walkUp_dots fuel 0

/-- C3 (code bug).  The claim says the top-level-directory computation of
`Download` is total over every entry list, including entries with no
directory component.  It is not: for an entry such as `a.lua` at the
archive root, `path.Split` yields the empty directory part, and the loop
`for { nxt := path.Join(dir, ".."); if nxt == "." { break }; dir = nxt }`
walks `"" → ".." → "../.." → …` and never reaches `"."` — the embedding
returns fuel exhaustion at every fuel value, i.e. the source loop spins
forever.  The second conjunct records the part of the claim the code does
satisfy: an archive with zero entries yields an empty set. -/
theorem C3_rootfile_divergence :
    (∀ fuel, Specification.Download spFresh (FetchOutcome.archive [⟨"a.lua", false, []⟩]) fuel
      = DLResult.fuelOut)
    ∧ Specification.Download spFresh (FetchOutcome.archive []) 1
      = DLResult.ok ⟨"pkg", "curse", "", "", some [], []⟩ := by
  constructor
  · intro fuel
    rw [Specification.Download,
      if_pos (show spFresh.Type' = "curse" ∨ spFresh.Type' = "wowace" from Or.inl rfl)]
    rw [afterFetch, topDirsRaw]
    rw [if_neg (by decide : ¬ (⟨"a.lua", false, []⟩ : ZipEntry).name = ".")]
    rw [show (pathSplit (⟨"a.lua", false, []⟩ : ZipEntry).name).1 = "" from rfl]
    rw [walkUp_empty fuel]
  · decide


/-! ## C6: ordering of the directory-creation list -/

/-- Auxiliary: a list lexicographically precedes any proper extension. -/
theorem lex_append_cons (l t : List Char) (c : Char) :
    List.Lex (· < ·) l (l ++ c :: t) := by
  induction l with
  | nil => exact List.Lex.nil
  | cons a l ih => exact List.Lex.cons ih

/-- Auxiliary: an ancestor path is lexicographically smaller than any of
its descendants. -/
theorem ancestor_lt (a b : String) (h : isAncestorOf a b) : a < b := by
  obtain ⟨suf, hsuf, rfl⟩ := h
  rw [String.lt_iff_toList_lt]
  show List.Lex (· < ·) a.data ((a ++ "/" ++ suf)).data
  rw [String.data_append, String.data_append]
  rw [show ("/" : String).data = ['/'] from rfl, List.append_assoc]
  exact lex_append_cons a.data ("/".data ++ suf.data).tail '/'

/-- Auxiliary: the boolean comparison agrees with lexicographic order on
character lists. -/
theorem charListLtB_iff (as bs : List Char) :
    charListLtB as bs = true ↔ List.Lex (· < ·) as bs := by
  induction as generalizing bs with
  | nil =>
    cases bs with
    | nil => exact iff_of_false (by simp [charListLtB]) (List.Lex.not_nil_right _ _)
    | cons b bs => exact iff_of_true rfl List.Lex.nil
  | cons a as ih =>
    cases bs with
    | nil => exact iff_of_false (by simp [charListLtB]) (List.Lex.not_nil_right _ _)
    | cons b bs =>
      rw [charListLtB]
      rcases lt_trichotomy a b with hab | hab | hab
      · rw [if_pos (show a.toNat < b.toNat from hab)]
        exact iff_of_true rfl (List.Lex.rel hab)
      · subst hab
        rw [if_neg (lt_irrefl a.toNat), if_neg (lt_irrefl a.toNat)]
        rw [List.Lex.cons_iff]
        exact ih bs
      · rw [if_neg (show ¬ a.toNat < b.toNat from not_lt_of_gt hab)]
        rw [if_pos (show b.toNat < a.toNat from hab)]
        refine iff_of_false (by simp) ?_
        intro hlex
        cases hlex with
        | rel h => exact absurd h (not_lt_of_gt hab)
        | cons h => exact lt_irrefl a hab

/-- Auxiliary: the boolean comparison agrees with `<` on strings. -/
theorem strLtB_iff (a b : String) : strLtB a b = true ↔ a < b := by
  rw [String.lt_iff_toList_lt]
  exact charListLtB_iff a.data b.data

/-- Auxiliary: the sorting relation is string `≤`. -/
theorem strLeP_iff (a b : String) : strLeP a b ↔ a ≤ b := by
  rw [strLeP, strLeB, Bool.not_eq_true', ← Bool.not_eq_true, strLtB_iff]
  exact not_lt

instance : IsTotal String strLeP :=
  ⟨fun a b => by rw [strLeP_iff, strLeP_iff]; exact le_total a b⟩

instance : IsTrans String strLeP :=
  ⟨fun a b c hab hbc => by
    rw [strLeP_iff] at hab hbc ⊢
    exact le_trans hab hbc⟩

/-- Auxiliary: `sort.Strings` output is ascending. -/
theorem sortStrings_sorted (l : List String) : List.Sorted (· ≤ ·) (sortStrings l) :=
  (List.sorted_insertionSort strLeP l).imp fun hab => (strLeP_iff _ _).mp hab

/-- Auxiliary: membership in the raw ancestor-directory list collected by
the entry loop of `PlanChanges`. -/
theorem mem_newDirsRaw (fuel : Nat) (es : List ZipEntry) (raw : List String)
    (h : newDirsRaw fuel es = some raw) (d : String) :
    d ∈ raw ↔ ∃ e ∈ es, ∃ c, dirChain fuel (pathDir e.name) = some c ∧ d ∈ c := by
  induction es generalizing raw with
  | nil =>
    simp [newDirsRaw] at h
    subst h
    simp
  | cons e es ih =>
    rw [newDirsRaw] at h
    cases hc : dirChain fuel (pathDir e.name) with
    | none => rw [hc] at h; cases h
    | some c =>
      rw [hc] at h
      cases hr : newDirsRaw fuel es with
      | none => rw [hr] at h; cases h
      | some r =>
        rw [hr] at h
        cases h
        rw [List.mem_append]
        constructor
        · rintro (hmem | hmem)
          · exact ⟨e, List.mem_cons_self _ _, c, hc, hmem⟩
          · rcases (ih r hr).mp hmem with ⟨e', he', c', hc', hd'⟩
            exact ⟨e', List.mem_cons_of_mem _ he', c', hc', hd'⟩
        · rintro ⟨e', he', c', hc', hd'⟩
          rcases List.mem_cons.mp he' with rfl | hmem
          · rw [hc] at hc'
            cases hc'
            exact Or.inl hd'
          · exact Or.inr ((ih r hr).mpr ⟨e', hmem, c', hc', hd'⟩)

/-- Auxiliary: `mkDirChanges` distributes over append. -/
theorem mkDir_append (l₁ l₂ : List commiter) :
    mkDirChanges (l₁ ++ l₂) = mkDirChanges l₁ ++ mkDirChanges l₂ :=
  List.filter_append _ _

/-- Auxiliary: a mapped `fsRmdir` list is dropped by `mkDirChanges`. -/
theorem mkDir_map_rm (g : String → String) (l : List String) :
    mkDirChanges (l.map fun d => commiter.fsRmdir (g d)) = [] := by
  induction l with
  | nil => rfl
  | cons a l ih => simp [mkDirChanges, List.filter_cons, ih]

/-- Auxiliary: a mapped `fsMkdir` list passes through `mkDirChanges`. -/
theorem mkDir_map_mk (g : String → String) (l : List String) :
    mkDirChanges (l.map fun d => commiter.fsMkdir (g d)) = l.map fun d => commiter.fsMkdir (g d) := by
  induction l with
  | nil => rfl
  | cons a l ih => simp [mkDirChanges, List.filter_cons, ih]

/-- Auxiliary: a mapped `fsWritefile` list is dropped by `mkDirChanges`. -/
theorem mkDir_map_wr (base : String) (es : List ZipEntry) :
    mkDirChanges (es.map fun f => commiter.fsWritefile (pathJoin2 base f.name) f.content) = [] := by
  induction es with
  | nil => rfl
  | cons e es ih => simp [mkDirChanges, List.filter_cons, ih]

/-- C6.  Whenever the directory-set computation of `PlanChanges`
terminates with list `l`, the list is ascending in lexicographic order; in
particular an ancestor directory always appears strictly before any of its
descendants, so no `MakeDir` references a not-yet-created parent; `l`
holds exactly the ancestor directories implied by some entry's parent
chain; and the `MakeDir` changes of the emitted plan are exactly `l`, in
order, prefixed with the base directory. -/
theorem C6_mkdir_order (es : List ZipEntry) (fuel : Nat) (l : List String)
    (h : newDirsSorted fuel es = some l) :
    List.Sorted (· ≤ ·) l
    ∧ (∀ i j : Fin l.length, isAncestorOf (l.get i) (l.get j) → (i : Nat) < (j : Nat))
    ∧ (∀ d, d ∈ l ↔ ∃ e ∈ es, ∃ c, dirChain fuel (pathDir e.name) = some c ∧ d ∈ c)
    ∧ (∀ (sp : Specification) (base : String) (plan : List commiter),
        (sp.Type' = "curse" ∨ sp.Type' = "wowace") →
        sp.zipData = some es → sp.PlanChanges base fuel = PlanResult.ok plan →
        mkDirChanges plan = l.map fun s₀ => commiter.fsMkdir (pathJoin2 base s₀)) := by
  rw [newDirsSorted] at h
  cases hr : newDirsRaw fuel es with
  | none => rw [hr] at h; cases h
  | some raw =>
    rw [hr] at h
    change some (sortStrings raw.dedup) = some l at h
    cases h
    have hsorted : List.Sorted (· ≤ ·) (sortStrings raw.dedup) := sortStrings_sorted raw.dedup
    refine ⟨hsorted, ?_, ?_, ?_⟩
    · intro i j hanc
      have hlt := ancestor_lt _ _ hanc
      rcases Nat.lt_trichotomy (i : Nat) (j : Nat) with hij | hij | hij
      · exact hij
      · exact absurd hlt (by rw [Fin.ext hij]; exact lt_irrefl _)
      · have hji : j < i := hij
        have hle := List.pairwise_iff_get.mp hsorted j i hji
        exact absurd (lt_of_lt_of_le hlt hle) (lt_irrefl _)
    · intro d
      rw [show sortStrings raw.dedup = List.insertionSort strLeP raw.dedup from rfl]
      rw [List.mem_insertionSort, List.mem_dedup]
      exact mem_newDirsRaw fuel es raw hr d
    · intro sp base plan ht hz hp
      rw [planChanges_archive_eq sp es (sortStrings raw.dedup) base fuel ht hz
        (by rw [newDirsSorted, hr]; rfl)] at hp
      cases hp
      rw [mkDir_append, mkDir_append, mkDir_map_rm, mkDir_map_mk, mkDir_map_wr]
      simp

/-- C6, witness at the two-entry archive: the sorted directory list is
`[Foo, Foo/sub]`. -/
theorem C6_mkdir_order_witness :
    (newDirsSorted 10 esFoo = some ["Foo", "Foo/sub"])
    ∧ (List.Sorted (· ≤ ·) ["Foo", "Foo/sub"]
      ∧ (∀ i j : Fin (["Foo", "Foo/sub"] : List String).length,
          isAncestorOf ((["Foo", "Foo/sub"] : List String).get i)
            ((["Foo", "Foo/sub"] : List String).get j) → (i : Nat) < (j : Nat))
      ∧ (∀ d, d ∈ (["Foo", "Foo/sub"] : List String) ↔
          ∃ e ∈ esFoo, ∃ c, dirChain 10 (pathDir e.name) = some c ∧ d ∈ c)
      ∧ (∀ (sp : Specification) (base : String) (plan : List commiter),
          (sp.Type' = "curse" ∨ sp.Type' = "wowace") →
          sp.zipData = some esFoo → sp.PlanChanges base 10 = PlanResult.ok plan →
          mkDirChanges plan
            = (["Foo", "Foo/sub"] : List String).map
                fun s₀ => commiter.fsMkdir (pathJoin2 base s₀))) :=
  ⟨by decide, C6_mkdir_order esFoo 10 ["Foo", "Foo/sub"] (by decide)⟩


/-! ## C9: the two-phase barrier of `upgrade` -/

/-- Auxiliary: reachability invariant of the `upgrade` transition system.
Before the barrier no plan/commit event has happened and the download flags
mirror the download events; after the barrier every download event has
happened, the plan flags mirror the plan/commit events, and no download
event sits after a plan/commit event in the trace. -/
theorem ureach_inv (n : Nat) (tr : List UEvent) (s : UState)
    (h : UReach (initState n) tr s) :
    s.dl.length = n ∧ s.pc.length = n ∧
    ((s.phase = 1
        ∧ (∀ j : Nat, UEvent.planCommit j ∉ tr)
        ∧ (∀ i : Nat, i < n → (s.dl[i]? = some true ↔ UEvent.download i ∈ tr))
        ∧ s.pc = List.replicate n false)
      ∨ (s.phase = 2
        ∧ (∀ i : Nat, i < n → UEvent.download i ∈ tr)
        ∧ (∀ i : Nat, i < n → (s.pc[i]? = some true ↔ UEvent.planCommit i ∈ tr))
        ∧ (∀ p q i j : Nat, tr[p]? = some (UEvent.planCommit j) →
            tr[q]? = some (UEvent.download i) → q < p))) := by
  induction h with
  | refl =>
    refine ⟨by simp [initState], by simp [initState], Or.inl ⟨rfl, ?_, ?_, rfl⟩⟩
    · intro j
      simp
    · intro i hi
      simp [initState, List.getElem?_replicate, hi]
  | @step tr2 s2 ev s3 hreach hstep ih =>
    obtain ⟨hdl, hpc, hinv⟩ := ih
    cases hstep with
    | download i hphase hdli =>
      rcases hinv with ⟨h1, hnopc, hdliff, hpcrep⟩ | ⟨h2, _, _, _⟩
      · refine ⟨by simp [hdl], by simp [hpc], Or.inl ⟨rfl, ?_, ?_, hpcrep⟩⟩
        · intro j hmem
          rcases List.mem_append.mp hmem with hmem | hmem
          · exact hnopc j hmem
          · simp at hmem
        · intro i' hi'
          by_cases hii : i = i'
          · subst hii
            have hilen : i < s2.dl.length := (List.getElem?_eq_some.mp hdli).1
            rw [List.getElem?_set_self hilen]
            simp
          · rw [List.getElem?_set_ne hii, hdliff i' hi']
            simp [Ne.symm hii]
      · omega
    | barrier hphase hall =>
      rcases hinv with ⟨h1, hnopc, hdliff, hpcrep⟩ | ⟨h2, _, _, _⟩
      · rw [List.append_nil]
        refine ⟨hdl, hpc, Or.inr ⟨rfl, ?_, ?_, ?_⟩⟩
        · intro i hi
          have hilen : i < s2.dl.length := by omega
          have hb : s2.dl[i]? = some (s2.dl[i]) := List.getElem?_eq_getElem hilen
          have hmem : s2.dl[i] ∈ s2.dl := List.getElem_mem hilen
          have htrue : s2.dl[i] = true := hall _ hmem
          rw [htrue] at hb
          exact (hdliff i hi).mp hb
        · intro i hi
          rw [hpcrep]
          constructor
          · intro hmem
            rw [List.getElem?_replicate] at hmem
            simp [hi] at hmem
          · intro hmem
            exact absurd hmem (hnopc i)
        · intro p q i j hp hq
          obtain ⟨hlt, heq⟩ := List.getElem?_eq_some.mp hp
          exact absurd (heq ▸ List.getElem_mem hlt) (hnopc j)
      · omega
    | planCommit i hphase hpci =>
      rcases hinv with ⟨h1, _, _, _⟩ | ⟨h2, hdlall, hpciff, hord⟩
      · omega
      · refine ⟨hdl, by simp [hpc], Or.inr ⟨rfl, ?_, ?_, ?_⟩⟩
        · intro i' hi'
          exact List.mem_append.mpr (Or.inl (hdlall i' hi'))
        · intro i' hi'
          by_cases hii : i = i'
          · subst hii
            have hilen : i < s2.pc.length := (List.getElem?_eq_some.mp hpci).1
            rw [List.getElem?_set_self hilen]
            simp
          · rw [List.getElem?_set_ne hii, hpciff i' hi']
            simp [Ne.symm hii]
        · intro p q i' j hp hq
          rcases Nat.lt_or_ge q tr2.length with hqlt | hqge
          · rcases Nat.lt_or_ge p tr2.length with hplt | hpge
            · rw [List.getElem?_append, if_pos hplt] at hp
              rw [List.getElem?_append, if_pos hqlt] at hq
              exact hord p q i' j hp hq
            · exact lt_of_lt_of_le hqlt hpge
          · rw [List.getElem?_append_right hqge] at hq
            rcases hk : q - tr2.length with _ | k
            · rw [hk] at hq
              simp at hq
            · rw [hk] at hq
              simp at hq

/-- C9.  In the `upgrade` transition system, every completed run satisfies
the claim: every download event precedes every plan/commit event in the
trace (no specification's plan/commit begins before every specification's
fetch has finished), and a run only finishes once every specification's
download and plan/commit have both happened.  Moreover no ordering is
guaranteed between different specifications' plan/commit tasks: for two
specifications, completed runs exist with either commit order. -/
theorem C9_two_phase_barrier (n : Nat) (tr : List UEvent) (s : UState)
    (hr : UReach (initState n) tr s) (hdone : UDone s) :
    (∀ p q i j : Nat, tr[p]? = some (UEvent.download i) →
        tr[q]? = some (UEvent.planCommit j) → p < q)
    ∧ (∀ i : Nat, i < n → UEvent.download i ∈ tr ∧ UEvent.planCommit i ∈ tr)
    ∧ (∃ tr₁ s₁ tr₂ s₂, UReach (initState 2) tr₁ s₁ ∧ UDone s₁
        ∧ UReach (initState 2) tr₂ s₂ ∧ UDone s₂
        ∧ tr₁[2]? = some (UEvent.planCommit 0) ∧ tr₁[3]? = some (UEvent.planCommit 1)
        ∧ tr₂[2]? = some (UEvent.planCommit 1) ∧ tr₂[3]? = some (UEvent.planCommit 0)) := by
  obtain ⟨hdl, hpc, hinv⟩ := ureach_inv n tr s hr
  rcases hinv with ⟨h1, _, _, _⟩ | ⟨h2, hdlall, hpciff, hord⟩
  · have := hdone.1
    omega
  · refine ⟨?_, ?_, ?_⟩
    · intro p q i j hp hq
      exact hord q p i j hq hp
    · intro i hi
      refine ⟨hdlall i hi, ?_⟩
      have hilen : i < s.pc.length := by omega
      have hb : s.pc[i]? = some (s.pc[i]) := List.getElem?_eq_getElem hilen
      have htrue : s.pc[i] = true := hdone.2 _ (List.getElem_mem hilen)
      rw [htrue] at hb
      exact (hpciff i hi).mp hb
    · have t1 : UReach (initState 2)
          [UEvent.download 0, UEvent.download 1, UEvent.planCommit 0, UEvent.planCommit 1]
          ⟨2, [true, true], [true, true]⟩ :=
        UReach.step
          (UReach.step
            (UReach.step
              (UReach.step
                (UReach.step (UReach.refl (initState 2))
                  (UStep.download ⟨1, [false, false], [false, false]⟩ 0 rfl rfl))
                (UStep.download ⟨1, [true, false], [false, false]⟩ 1 rfl rfl))
              (UStep.barrier ⟨1, [true, true], [false, false]⟩ rfl (by decide)))
            (UStep.planCommit ⟨2, [true, true], [false, false]⟩ 0 rfl rfl))
          (UStep.planCommit ⟨2, [true, true], [true, false]⟩ 1 rfl rfl)
      have t2 : UReach (initState 2)
          [UEvent.download 0, UEvent.download 1, UEvent.planCommit 1, UEvent.planCommit 0]
          ⟨2, [true, true], [true, true]⟩ :=
        UReach.step
          (UReach.step
            (UReach.step
              (UReach.step
                (UReach.step (UReach.refl (initState 2))
                  (UStep.download ⟨1, [false, false], [false, false]⟩ 0 rfl rfl))
                (UStep.download ⟨1, [true, false], [false, false]⟩ 1 rfl rfl))
              (UStep.barrier ⟨1, [true, true], [false, false]⟩ rfl (by decide)))
            (UStep.planCommit ⟨2, [true, true], [false, false]⟩ 1 rfl rfl))
          (UStep.planCommit ⟨2, [true, true], [false, true]⟩ 0 rfl rfl)
      exact ⟨_, _, _, _, t1, ⟨rfl, by decide⟩, t2, ⟨rfl, by decide⟩, rfl, rfl, rfl, rfl⟩

/-- C9, witness: a completed one-specification run. -/
theorem C9_two_phase_barrier_witness :
    (UReach (initState 1) [UEvent.download 0, UEvent.planCommit 0] ⟨2, [true], [true]⟩
      ∧ UDone ⟨2, [true], [true]⟩)
    ∧ ((∀ p q i j : Nat,
          ([UEvent.download 0, UEvent.planCommit 0] : List UEvent)[p]? = some (UEvent.download i) →
          ([UEvent.download 0, UEvent.planCommit 0] : List UEvent)[q]? = some (UEvent.planCommit j) →
          p < q)
      ∧ (∀ i : Nat, i < 1 → UEvent.download i ∈ ([UEvent.download 0, UEvent.planCommit 0] : List UEvent)
          ∧ UEvent.planCommit i ∈ ([UEvent.download 0, UEvent.planCommit 0] : List UEvent))
      ∧ (∃ tr₁ s₁ tr₂ s₂, UReach (initState 2) tr₁ s₁ ∧ UDone s₁
          ∧ UReach (initState 2) tr₂ s₂ ∧ UDone s₂
          ∧ tr₁[2]? = some (UEvent.planCommit 0) ∧ tr₁[3]? = some (UEvent.planCommit 1)
          ∧ tr₂[2]? = some (UEvent.planCommit 1) ∧ tr₂[3]? = some (UEvent.planCommit 0))) := by
  have t : UReach (initState 1) [UEvent.download 0, UEvent.planCommit 0] ⟨2, [true], [true]⟩ :=
    UReach.step
      (UReach.step
        (UReach.step (UReach.refl (initState 1))
          (UStep.download ⟨1, [false], [false]⟩ 0 rfl rfl))
        (UStep.barrier ⟨1, [true], [false]⟩ rfl (by decide)))
      (UStep.planCommit ⟨2, [true], [false]⟩ 0 rfl rfl)
  exact ⟨⟨t, ⟨rfl, by decide⟩⟩, C9_two_phase_barrier 1 _ _ t ⟨rfl, by decide⟩⟩

end Wpm
